import Mathlib

/-!
Verification of `src/pandabuffers/proto_to_pandas.py`.

The Python module converts sequences of schema-described protobuf messages
into pandas DataFrames.  We give a shallow embedding: protobuf messages are
modelled as finite trees of named fields (scalar, singular message, repeated
scalar, repeated message); Python dicts are modelled as insertion-ordered
association lists with overwrite-on-reassignment semantics; the pandas
operations used by the source (`json_normalize` with its `nested_to_record`
flattening, `set_index`, `Index.rename`) are modelled on a small `DataFrame`
structure.  Each function of the source file is translated one-to-one.
-/

namespace Pandabuffers

/-- Scalar protobuf/JSON values (the claims only need ints and strings). -/
inductive PScalar : Type where
  | int (n : Int)
  | str (s : String)
deriving DecidableEq, Repr

/-- A Python value stored in a dict produced by the module: either a scalar
or a nested dict (insertion-ordered association list). -/
inductive JValue : Type where
  | scalar (v : PScalar)
  | obj (d : List (String × JValue))

/-- A Python dict with string keys: insertion-ordered association list. -/
abbrev Dict := List (String × JValue)

/-- The keys of a dict, in insertion order. -/
def dkeys (d : Dict) : List String := d.map Prod.fst

/-- Python `d[k]` read access (`None` when the key is absent). -/
def dlookup (d : Dict) (k : String) : Option JValue :=
  (d.find? (fun kv => kv.1 == k)).map Prod.snd

/-- Python `d[k] = v`: overwrite in place when the key exists (keeping its
position), otherwise append at the end. -/
def dinsert (d : Dict) (k : String) (v : JValue) : Dict :=
  if (dkeys d).contains k then
    d.map (fun kv => if kv.1 == k then (k, v) else kv)
  else
    d ++ [(k, v)]

/-- Python `d.pop(k)`: remove the entry with key `k`. -/
def popKey (d : Dict) (k : String) : Dict :=
  d.filter (fun kv => kv.1 != k)

/-- Python `d.update(m)`: assign every entry of `m` into `d`, in order. -/
def dictUpdate (d m : Dict) : Dict :=
  m.foldl (fun acc kv => dinsert acc kv.1 kv.2) d

mutual

/-- A protobuf field value.  The constructor records the descriptor data the
source consults: `field.label == LABEL_REPEATED` holds for `repScalar` and
`repMsg`; `field.message_type` is truthy for `msg` and `repMsg`. -/
inductive ProtoValue : Type where
  | scalar (v : PScalar)
  | msg (m : ProtoMessage)
  | repScalar (vs : List PScalar)
  | repMsg (ms : List ProtoMessage)

/-- A protobuf message: its descriptor field list (ordered) with the value
held for each field. -/
inductive ProtoMessage : Type where
  | mk (fields : List (String × ProtoValue))

end

/-- The field list of a message. -/
def ProtoMessage.fields : ProtoMessage → List (String × ProtoValue)
  | .mk fs => fs

/-- Python `getattr(message, name)` / `DESCRIPTOR.fields_by_name[name]`:
look a field up by name. -/
def plookup (m : ProtoMessage) (k : String) : Option ProtoValue :=
  (m.fields.find? (fun kv => kv.1 == k)).map Prod.snd

/-- Python `s.partition(".")` on the character list: split at the first dot,
returning `none` when there is no dot. -/
def partitionList : List Char → Option (List Char × List Char)
  | [] => none
  | c :: cs =>
    if c = '.' then some ([], cs)
    else
      match partitionList cs with
      | none => none
      | some (a, b) => some (c :: a, b)

/-- Python `path.partition(".")`, keeping the pieces before and after the
first dot (the whole string and `""` when there is no dot). -/
def partitionDot (s : String) : String × String :=
  match partitionList s.data with
  | none => (s, "")
  | some (a, b) => (String.mk a, String.mk b)

theorem partitionList_length {cs a b : List Char}
    (h : partitionList cs = some (a, b)) :
    a.length + b.length + 1 = cs.length := by
  induction cs generalizing a b with
  | nil => simp [partitionList] at h
  | cons c cs ih =>
    by_cases hc : c = '.'
    · simp [partitionList, hc] at h
      obtain ⟨rfl, rfl⟩ := h
      simp
    · simp only [partitionList, if_neg hc] at h
      cases hpl : partitionList cs with
      | none => rw [hpl] at h; exact absurd h (by simp)
      | some ab =>
        obtain ⟨a', b'⟩ := ab
        rw [hpl] at h
        simp at h
        obtain ⟨rfl, rfl⟩ := h
        have := ih hpl
        simp [List.length_cons]
        omega

theorem partitionDot_rest_le (s : String) :
    (partitionDot s).2.length ≤ s.length := by
  unfold partitionDot
  cases hpl : partitionList s.data with
  | none => simp
  | some ab =>
    obtain ⟨a, b⟩ := ab
    have := partitionList_length hpl
    simp only []
    show (String.mk b).length ≤ s.length
    have hb : (String.mk b).length = b.length := rfl
    have hs : s.length = s.data.length := rfl
    omega

theorem partitionDot_rest_lt {s : String}
    (h : (partitionDot s).2 ≠ "") :
    (partitionDot s).2.length < s.length := by
  unfold partitionDot at h ⊢
  cases hpl : partitionList s.data with
  | none => rw [hpl] at h; simp at h
  | some ab =>
    obtain ⟨a, b⟩ := ab
    have := partitionList_length hpl
    rw [hpl] at h
    simp only []
    show (String.mk b).length < s.length
    have hb : (String.mk b).length = b.length := rfl
    have hs : s.length = s.data.length := rfl
    omega

mutual

/-- Source `proto_to_dict` (lines 7-26): build a dict from a message,
skipping repeated fields, recursing into singular message fields, copying
scalar fields verbatim. -/
def proto_to_dict (m : ProtoMessage) : Dict :=
  match m with
  | .mk fields => ptdGo fields []

/-- The `for field in proto_message.DESCRIPTOR.fields` loop of
`proto_to_dict`, with the dict built so far as accumulator. -/
def ptdGo : List (String × ProtoValue) → Dict → Dict
  | [], acc => acc
  | (name, v) :: rest, acc =>
    match v with
    | .repScalar _ => ptdGo rest acc
    | .repMsg _ => ptdGo rest acc
    | .msg sub => ptdGo rest (dinsert acc name (.obj (proto_to_dict sub)))
    | .scalar s => ptdGo rest (dinsert acc name (.scalar s))

end

/-- One step of pandas `nested_to_record`: the key under which entry `k` is
re-filed at nesting level `level` below prefix `prefix`. -/
def newKey (pre : String) (level : Nat) (k : String) : String :=
  if level = 0 then k else pre ++ "." ++ k

mutual

/-- pandas `nested_to_record` (called by `json_normalize`): flatten nested
dicts into dot-joined keys.  At level 0 scalar entries stay in place; at
deeper levels they are popped and re-appended under the prefixed key; dict
entries are popped and their flattened contents appended at the end. -/
def ntr (d : Dict) (pre : String) (level : Nat) : Dict :=
  ntrGo d pre level d
termination_by sizeOf d + 1

/-- The `for k, v in d.items()` loop of `nested_to_record`: `entries` is the
iteration list of the original dict, `newD` the working copy. -/
def ntrGo (entries : Dict) (pre : String) (level : Nat) (newD : Dict) : Dict :=
  match entries with
  | [] => newD
  | (k, v) :: rest =>
    match v with
    | .scalar s =>
      if level = 0 then ntrGo rest pre level newD
      else ntrGo rest pre level (dinsert (popKey newD k) (newKey pre level k) (.scalar s))
    | .obj sub =>
      ntrGo rest pre level (dictUpdate (popKey newD k) (ntr sub (newKey pre level k) (level + 1)))
termination_by sizeOf entries

end

/-- Python `s.startswith(pre)`. -/
def strStarts (pre s : String) : Bool :=
  pre.data.isPrefixOf s.data

/-- Lexicographic (code-point) order on character lists, as used by Python
string comparison. -/
def charListLe : List Char → List Char → Bool
  | [], _ => true
  | _ :: _, [] => false
  | a :: as, b :: bs => if a < b then true else if a = b then charListLe as bs else false

/-- Python `a <= b` on strings. -/
def strLe (a b : String) : Bool :=
  charListLe a.data b.data

/-- Insert into a `strLe`-sorted list, keeping it sorted (stable). -/
def insertSorted (x : String) : List String → List String
  | [] => [x]
  | y :: ys => if strLe x y then x :: y :: ys else y :: insertSorted x ys

/-- Python `sorted` on a list of strings (insertion sort; Python sorting is
by ascending lexicographic code-point order). -/
def sortStrings : List String → List String
  | [] => []
  | x :: xs => insertSorted x (sortStrings xs)

/-- The union of the key lists of a sequence of dicts, first-seen order:
the column space pandas assigns to a list of records. -/
def unionKeys (ds : List Dict) : List String :=
  ds.foldl (fun acc d => (dkeys d).foldl (fun a k => if a.contains k then a else a ++ [k]) acc) []

/-- The pandas DataFrame data visible to this module: the names of the index
levels (`none` for an unnamed default index), the per-row index values, the
data column names, and the per-row data mappings. -/
structure DataFrame : Type where
  indexNames : List (Option String)
  indexRows : List (List (Option JValue))
  columns : List String
  rowData : List Dict

/-- pandas `json_normalize`: flatten each record with `nested_to_record`,
assemble the union of keys as columns, and attach the default `RangeIndex`
(0-based, unnamed). -/
def json_normalize (ds : List Dict) : DataFrame :=
  let flat := ds.map (fun d => ntr d "" 0)
  { indexNames := [none]
  , indexRows := (List.range ds.length).map (fun i => [some (.scalar (.int i))])
  , columns := unionKeys flat
  , rowData := flat }

/-- pandas `df.set_index(cols)` (defaults `drop=True`, `append=False`): the
listed columns become the composite row key, in the given order, and are
removed from the data columns. -/
def set_index (df : DataFrame) (cols : List String) : DataFrame :=
  { indexNames := cols.map some
  , indexRows := df.rowData.map (fun d => cols.map (fun c => dlookup d c))
  , columns := df.columns.filter (fun c => !cols.contains c)
  , rowData := df.rowData.map (fun d => d.filter (fun kv => !cols.contains kv.1)) }

/-- pandas `df.set_index(df.index.rename({src: tgt}))`: rename every index
level called `src` to `tgt`. -/
def renameIndexLevels (df : DataFrame) (src tgt : String) : DataFrame :=
  { df with indexNames := df.indexNames.map (fun o => o.map (fun n => if n = src then tgt else n)) }

/-- Source `proto_normalize` (lines 29-41): flatten every message with
`proto_to_dict`, `json_normalize` the results, and rename the row index to
`"index"`. -/
def proto_normalize (protos : List ProtoMessage) : DataFrame :=
  let df := json_normalize (protos.map proto_to_dict)
  { df with indexNames := df.indexNames.map (fun _ => some "index") }

theorem plookup_sizeOf {m : ProtoMessage} {k : String} {v : ProtoValue}
    (h : plookup m k = some v) : sizeOf v < sizeOf m := by
  obtain ⟨fs⟩ := m
  have hfs : (ProtoMessage.mk fs).fields = fs := rfl
  unfold plookup at h
  rw [hfs] at h
  cases hf : fs.find? (fun kv => kv.1 == k) with
  | none => rw [hf] at h; simp at h
  | some kv0 =>
    rw [hf] at h
    simp at h
    have hmem : kv0 ∈ fs := List.mem_of_find?_eq_some hf
    have h1 : sizeOf kv0 < sizeOf fs := List.sizeOf_lt_of_mem hmem
    obtain ⟨k0, v0⟩ := kv0
    simp at h
    subst h
    have h2 : sizeOf (ProtoMessage.mk fs) = 1 + sizeOf fs := by simp
    simp at h1
    omega

/-- The spec's single error kind, `InvalidPathError`.  `fieldNotFound name`
models the Python `AttributeError` raised by `getattr` when `name` is not a
field of the current object; `cannotTraverse rest current` models the
`ValueError` raised at line 98, whose message interpolates the remaining
path fragment `rest` and the offending segment `current`. -/
inductive InvalidPathError : Type where
  | fieldNotFound (name : String)
  | cannotTraverse (rest current : String)
deriving DecidableEq, Repr

/-- The elements of a repeated field, together with the `field.message_type`
information `dicts_from_repeated_field` branches on. -/
inductive RepElems : Type where
  | scalars (xs : List PScalar)
  | msgs (ms : List ProtoMessage)

/-- Source `dicts_from_repeated_field` (lines 44-54): one dict per element;
message elements are flattened with `proto_to_dict` and then the positional
index is assigned under `index_path`; scalar elements produce the two-entry
dict `{index_path: i, current_path: value}`. -/
def dicts_from_repeated_field (elems : RepElems) (current_path index_path : String) : List Dict :=
  match elems with
  | .scalars xs =>
    xs.enum.map (fun p => dinsert (dinsert [] index_path (.scalar (.int p.1))) current_path (.scalar p.2))
  | .msgs ms =>
    ms.enum.map (fun p => dinsert (proto_to_dict p.2) index_path (.scalar (.int p.1)))

/-- Source `explode_repeated` (lines 57-64) applied to a repeated *scalar*
field with path segments remaining: the loop's first iteration calls
`explode_field` on a scalar element, whose `getattr` raises
`AttributeError` for the first segment of the remaining path; an empty
container yields no iterations and an empty row list. -/
def explode_repeated_sc (xs : List PScalar) (path : String) : Except InvalidPathError (List Dict) :=
  match xs with
  | [] => .ok []
  | _ :: _ => .error (.fieldNotFound (partitionDot path).1)

mutual

/-- Source `explode_field` (lines 67-100): split the path at the first dot,
extend the index path, look the segment up; a repeated field is terminal
(`dicts_from_repeated_field`) or intermediate (`explode_repeated`); a
singular message field recurses; a singular scalar field raises the
`ValueError` of line 98.  A name that is not a field raises
`AttributeError` from `getattr` (line 87). -/
def explode_field (m : ProtoMessage) (path idx : String) : Except InvalidPathError (List Dict) :=
  let current := (partitionDot path).1
  let rest := (partitionDot path).2
  let idx2 := idx ++ "." ++ current
  match hv : plookup m current with
  | none => .error (.fieldNotFound current)
  | some (.repScalar xs) =>
    if rest = "" then .ok (dicts_from_repeated_field (.scalars xs) current idx2)
    else explode_repeated_sc xs rest
  | some (.repMsg ms) =>
    if hr : rest = "" then .ok (dicts_from_repeated_field (.msgs ms) current idx2)
    else explode_repeated_go ms rest idx2 0
  | some (.msg sub) => explode_field sub rest idx2
  | some (.scalar _) => .error (.cannotTraverse rest current)
termination_by (path.length, sizeOf m)
decreasing_by
  · apply Prod.Lex.left
    exact partitionDot_rest_lt hr
  · rcases Nat.lt_or_ge ((partitionDot path).2.length) path.length with hlt | hge
    · exact Prod.Lex.left _ _ hlt
    · have hle := partitionDot_rest_le path
      have heq : (partitionDot path).2.length = path.length := by omega
      rw [heq]
      apply Prod.Lex.right
      have h1 := plookup_sizeOf hv
      have h2 : sizeOf (ProtoValue.msg sub) = 1 + sizeOf sub := by simp
      omega

/-- Source `explode_repeated` (lines 57-64) on a repeated *message* field:
`for i, message in enumerate(...)`: recursively explode each element with
the remaining path, stamp each resulting row with this level's position
under this level's index key, and concatenate in element order. -/
def explode_repeated_go (ms : List ProtoMessage) (path idx : String) (i : Nat) : Except InvalidPathError (List Dict) :=
  match ms with
  | [] => .ok []
  | e :: rest =>
    match explode_field e path idx with
    | .error err => .error err
    | .ok ds =>
      match explode_repeated_go rest path idx (i + 1) with
      | .error err => .error err
      | .ok tail => .ok ((ds.map (fun d => dinsert d idx (.scalar (.int i)))) ++ tail)
termination_by (path.length, sizeOf ms)
decreasing_by
  · apply Prod.Lex.right
    simp
    omega
  · apply Prod.Lex.right
    simp

end

/-- Source `explode_repeated` (lines 57-64), message-element case, with the
enumeration counter started at 0. -/
def explode_repeated (ms : List ProtoMessage) (path idx : String) : Except InvalidPathError (List Dict) :=
  explode_repeated_go ms path idx 0

/-- The `for i, proto in enumerate(list_of_protos)` loop of `proto_explode`
(lines 116-121): explode each record with index path `"index"` and stamp
every resulting row with the record position under the `"index."` key. -/
def proto_explode_go (protos : List ProtoMessage) (path : String) (i : Nat) : Except InvalidPathError (List Dict) :=
  match protos with
  | [] => .ok []
  | p :: rest =>
    match explode_field p path "index" with
    | .error err => .error err
    | .ok ds =>
      match proto_explode_go rest path (i + 1) with
      | .error err => .error err
      | .ok tail => .ok ((ds.map (fun d => dinsert d "index." (.scalar (.int i)))) ++ tail)

/-- Source `proto_explode` (lines 103-125): build the row dicts,
`json_normalize` them, collect the columns with the reserved `"index."`
prefix, sort them, set them as the composite row key, and rename the
`"index."` level to `"index"`. -/
def proto_explode (protos : List ProtoMessage) (path : String) : Except InvalidPathError DataFrame :=
  match proto_explode_go protos path 0 with
  | .error err => .error err
  | .ok pl =>
    let df := json_normalize pl
    let index_columns := sortStrings (df.columns.filter (fun c => strStarts "index." c))
    let df2 := set_index df index_columns
    .ok (renameIndexLevels df2 "index." "index")

theorem explode_field_none {m : ProtoMessage} {path seg rest idx : String}
    (h1 : partitionDot path = (seg, rest)) (h2 : plookup m seg = none) :
    explode_field m path idx = .error (.fieldNotFound seg) := by
  rw [explode_field]
  simp only [h1]
  split <;> simp_all

theorem explode_field_scalar {m : ProtoMessage} {path seg rest idx : String} {v : PScalar}
    (h1 : partitionDot path = (seg, rest)) (h2 : plookup m seg = some (.scalar v)) :
    explode_field m path idx = .error (.cannotTraverse rest seg) := by
  rw [explode_field]
  simp only [h1]
  split <;> simp_all

theorem explode_field_msg {m : ProtoMessage} {path seg rest idx : String} {sub : ProtoMessage}
    (h1 : partitionDot path = (seg, rest)) (h2 : plookup m seg = some (.msg sub)) :
    explode_field m path idx = explode_field sub rest (idx ++ "." ++ seg) := by
  rw [explode_field]
  simp only [h1]
  split <;> simp_all

theorem explode_field_repScalar {m : ProtoMessage} {path seg idx : String} {xs : List PScalar}
    (h1 : partitionDot path = (seg, "")) (h2 : plookup m seg = some (.repScalar xs)) :
    explode_field m path idx = .ok (dicts_from_repeated_field (.scalars xs) seg (idx ++ "." ++ seg)) := by
  rw [explode_field]
  simp only [h1]
  split <;> simp_all [dicts_from_repeated_field]

theorem explode_field_repScalar_rest {m : ProtoMessage} {path seg rest idx : String} {xs : List PScalar}
    (h1 : partitionDot path = (seg, rest)) (hr : rest ≠ "") (h2 : plookup m seg = some (.repScalar xs)) :
    explode_field m path idx = explode_repeated_sc xs rest := by
  rw [explode_field]
  simp only [h1]
  split <;> simp_all

theorem explode_field_repMsg {m : ProtoMessage} {path seg idx : String} {ms : List ProtoMessage}
    (h1 : partitionDot path = (seg, "")) (h2 : plookup m seg = some (.repMsg ms)) :
    explode_field m path idx = .ok (dicts_from_repeated_field (.msgs ms) seg (idx ++ "." ++ seg)) := by
  rw [explode_field]
  simp only [h1]
  split <;> simp_all [dicts_from_repeated_field]

theorem explode_field_repMsg_rest {m : ProtoMessage} {path seg rest idx : String} {ms : List ProtoMessage}
    (h1 : partitionDot path = (seg, rest)) (hr : rest ≠ "") (h2 : plookup m seg = some (.repMsg ms)) :
    explode_field m path idx = explode_repeated_go ms rest (idx ++ "." ++ seg) 0 := by
  rw [explode_field]
  simp only [h1]
  split <;> simp_all

mutual

/-- The declared kind of a schema field: scalar, singular message, repeated
scalar, or repeated message. -/
inductive FieldKind : Type where
  | scalarK
  | msgK (s : Schema)
  | repScalarK
  | repMsgK (s : Schema)

/-- A message schema: the ordered list of declared fields with their kinds.
The spec treats every record of a sequence as described by one schema. -/
inductive Schema : Type where
  | mk (fields : List (String × FieldKind))

end

/-- The field list of a schema. -/
def Schema.fields : Schema → List (String × FieldKind)
  | .mk fs => fs

mutual

/-- A message conforms to a schema when its fields match the declared names
and kinds pointwise, recursively. -/
def conforms (m : ProtoMessage) (s : Schema) : Bool :=
  match m, s with
  | .mk fs, .mk sfs => conformsFields fs sfs

def conformsFields : List (String × ProtoValue) → List (String × FieldKind) → Bool
  | [], [] => true
  | (n, v) :: fs, (n2, k) :: sfs => n == n2 && conformsVal v k && conformsFields fs sfs
  | _, _ => false

def conformsVal : ProtoValue → FieldKind → Bool
  | .scalar _, .scalarK => true
  | .msg sub, .msgK s2 => conforms sub s2
  | .repScalar _, .repScalarK => true
  | .repMsg ms, .repMsgK s2 => conformsList ms s2
  | _, _ => false

def conformsList : List ProtoMessage → Schema → Bool
  | [], _ => true
  | m :: ms, s => conforms m s && conformsList ms s

end

/-- A usable protobuf field name: nonempty, without dots, and distinct from
the reserved label `"index"` (protobuf field names are identifiers, and the
spec reserves the `"index."` prefix for index columns). -/
def cleanName (n : String) : Bool :=
  !(n.data.contains '.') && n != "index" && n != ""

/-- No string occurs twice. -/
def nodupNames : List String → Bool
  | [] => true
  | k :: ks => !(ks.contains k) && nodupNames ks

mutual

/-- A schema is clean when every declared name, recursively, is a
`cleanName` and names are unique at every level. -/
def cleanSchema : Schema → Bool
  | .mk sfs => cleanFields sfs && nodupNames (sfs.map Prod.fst)

def cleanFields : List (String × FieldKind) → Bool
  | [] => true
  | (n, k) :: rest => cleanName n && cleanKind k && cleanFields rest

def cleanKind : FieldKind → Bool
  | .scalarK => true
  | .repScalarK => true
  | .msgK s => cleanSchema s
  | .repMsgK s => cleanSchema s

end

/-- Whether a field kind is repeated (`field.label == LABEL_REPEATED`). -/
def isRepK : FieldKind → Bool
  | .repScalarK => true
  | .repMsgK _ => true
  | _ => false

/-- Whether a field value is repeated. -/
def isRepV : ProtoValue → Bool
  | .repScalar _ => true
  | .repMsg _ => true
  | _ => false

/-- The names of the non-repeated fields of a schema, in declaration
order. -/
def nonRepNames (s : Schema) : List String :=
  (s.fields.filter (fun f => !isRepK f.2)).map Prod.fst

/-- The names of the non-repeated fields of a message, in declaration
order. -/
def msgNonRepNames (m : ProtoMessage) : List String :=
  (m.fields.filter (fun f => !isRepV f.2)).map Prod.fst

mutual

/-- A well-formed record: field names are unique at every level (as protobuf
descriptors guarantee). -/
def wfMsg : ProtoMessage → Bool
  | .mk fs => nodupNames (fs.map Prod.fst) && wfFields fs

def wfFields : List (String × ProtoValue) → Bool
  | [] => true
  | (_, v) :: rest => wfVal v && wfFields rest

def wfVal : ProtoValue → Bool
  | .scalar _ => true
  | .repScalar _ => true
  | .msg sub => wfMsg sub
  | .repMsg ms => wfList ms

def wfList : List ProtoMessage → Bool
  | [] => true
  | m :: ms => wfMsg m && wfList ms

end

mutual

/-- A JSON value all of whose object keys, recursively, are clean field
names, unique per object. -/
def cleanJVal : JValue → Bool
  | .scalar _ => true
  | .obj d => cleanJEntries d && nodupNames (d.map Prod.fst)

def cleanJEntries : List (String × JValue) → Bool
  | [] => true
  | (k, v) :: rest => cleanName k && cleanJVal v && cleanJEntries rest

end

/-- The element list of a repeated field value. -/
def repElemsOf : ProtoValue → RepElems
  | .repScalar xs => .scalars xs
  | .repMsg ms => .msgs ms
  | _ => .scalars []

/-- The number of elements of a repeated field. -/
def relen : RepElems → Nat
  | .scalars xs => xs.length
  | .msgs ms => ms.length

/-- Whether an explode result is the traversal `ValueError` of line 98
(the error form whose message names the offending segment and the
untraversed path fragment). -/
def isTraversalError : Except InvalidPathError (List Dict) → Bool
  | .error (.cannotTraverse _ _) => true
  | _ => false

/-- Record 0 of the spec's concrete scenario:
`{a:1, b:[10,20], c:{d:"x"}}`. -/
def rec0 : ProtoMessage :=
  .mk [("a", .scalar (.int 1)), ("b", .repScalar [.int 10, .int 20]),
       ("c", .msg (.mk [("d", .scalar (.str "x"))]))]

/-- Record 1 of the spec's concrete scenario:
`{a:2, b:[30], c:{d:"y"}}`. -/
def rec1 : ProtoMessage :=
  .mk [("a", .scalar (.int 2)), ("b", .repScalar [.int 30]),
       ("c", .msg (.mk [("d", .scalar (.str "y"))]))]

/-- The schema of `nestedRec`. -/
def nestedSchema : Schema :=
  .mk [("c", .msgK (.mk [("e", .repScalarK)]))]

/-- A record `{c: {d: "x"}}` with only a singular message field. -/
def msgOnlyRec : ProtoMessage :=
  .mk [("c", .msg (.mk [("d", .scalar (.str "x"))]))]


theorem dkeys_append (a b : Dict) : dkeys (a ++ b) = dkeys a ++ dkeys b := by
  simp [dkeys]

theorem dlookup_append (a b : Dict) (k : String) :
    dlookup (a ++ b) k = (dlookup a k).or (dlookup b k) := by
  simp only [dlookup, List.find?_append]
  cases a.find? (fun kv => kv.1 == k) <;> simp

theorem dlookup_cons (a : String × JValue) (d : Dict) (k : String) :
    dlookup (a :: d) k = if a.1 = k then some a.2 else dlookup d k := by
  by_cases h : a.1 = k
  · simp only [dlookup, if_pos h]
    rw [List.find?_cons_of_pos]
    · rfl
    · simp [h]
  · simp only [dlookup, if_neg h]
    rw [List.find?_cons_of_neg]
    simp [h]

theorem dlookup_not_mem {d : Dict} {k : String} (h : k ∉ dkeys d) :
    dlookup d k = none := by
  induction d with
  | nil => rfl
  | cons a tl ih =>
    simp [dkeys] at h
    rw [dlookup_cons]
    rw [if_neg (fun he => h.1 he.symm)]
    exact ih (by simp [dkeys, h.2])

theorem dlookup_map_overwrite_ne {k k2 : String} (v : JValue) (h : k2 ≠ k) (d : Dict) :
    dlookup (d.map (fun kv => if kv.1 == k then (k, v) else kv)) k2 = dlookup d k2 := by
  induction d with
  | nil => rfl
  | cons a tl ih =>
    rw [List.map_cons, dlookup_cons, dlookup_cons]
    by_cases ha : a.1 = k
    · have h1 : (if (a.1 == k) = true then (k, v) else a) = (k, v) := by simp [ha]
      rw [h1]
      have h2 : ((k, v) : String × JValue).1 = k := rfl
      rw [h2]
      rw [if_neg (Ne.symm h)]
      have h3 : ¬ a.1 = k2 := by rw [ha]; exact Ne.symm h
      rw [if_neg h3]
      exact ih
    · have h1 : (if (a.1 == k) = true then (k, v) else a) = a := by simp [ha]
      rw [h1]
      by_cases he : a.1 = k2
      · rw [if_pos he, if_pos he]
      · rw [if_neg he, if_neg he]
        exact ih

theorem dinsert_notmem {d : Dict} {k : String} (v : JValue)
    (h : k ∉ dkeys d) :
    dinsert d k v = d ++ [(k, v)] := by
  simp [dinsert, h]

theorem dinsert_mem {d : Dict} {k : String} (v : JValue)
    (h : k ∈ dkeys d) :
    dinsert d k v = d.map (fun kv => if kv.1 == k then (k, v) else kv) := by
  simp [dinsert, h]

theorem dlookup_dinsert (d : Dict) (k k2 : String) (v : JValue) :
    dlookup (dinsert d k v) k2 = if k2 = k then some v else dlookup d k2 := by
  by_cases hc : k ∈ dkeys d
  · rw [dinsert_mem v hc]
    by_cases h : k2 = k
    · subst h
      rw [if_pos rfl]
      induction d with
      | nil => simp [dkeys] at hc
      | cons a tl ih =>
        rw [List.map_cons, dlookup_cons]
        by_cases ha : a.1 = k2
        · have h1 : (if (a.1 == k2) = true then (k2, v) else a) = (k2, v) := by simp [ha]
          rw [h1]
          have h2 : ((k2, v) : String × JValue).1 = k2 := rfl
          rw [h2, if_pos rfl]
        · have h1 : (if (a.1 == k2) = true then (k2, v) else a) = a := by simp [ha]
          rw [h1, if_neg ha]
          have hmem : k2 ∈ dkeys tl := by
            simp [dkeys] at hc ⊢
            rcases hc with h1 | h1
            · exact absurd h1.symm ha
            · exact h1
          exact ih hmem
    · rw [dlookup_map_overwrite_ne v h, if_neg h]
  · rw [dinsert_notmem v hc, dlookup_append]
    by_cases h : k2 = k
    · subst h
      rw [dlookup_not_mem hc, if_pos rfl, dlookup_cons]
      simp
    · rw [if_neg h, dlookup_cons]
      rw [if_neg (Ne.symm h)]
      show (dlookup d k2).or (dlookup [] k2) = dlookup d k2
      cases dlookup d k2 <;> rfl

theorem dlookup_dinsert_self (d : Dict) (k : String) (v : JValue) :
    dlookup (dinsert d k v) k = some v := by
  rw [dlookup_dinsert, if_pos rfl]

theorem dlookup_dinsert_ne {k k2 : String} (d : Dict) (v : JValue) (h : k2 ≠ k) :
    dlookup (dinsert d k v) k2 = dlookup d k2 := by
  rw [dlookup_dinsert, if_neg h]

theorem dkeys_dinsert_notmem {d : Dict} {k : String} (v : JValue)
    (h : k ∉ dkeys d) :
    dkeys (dinsert d k v) = dkeys d ++ [k] := by
  rw [dinsert_notmem v h, dkeys_append]
  rfl


/-- C8: `proto_normalize` preserves input order: row `i` of the table is the
flattening of input record `i`, and the row index is the 0-based sequential
position, labelled `"index"`. -/
theorem claim8_normalize_order (protos : List ProtoMessage) :
    (proto_normalize protos).indexNames = [some "index"] ∧
    (proto_normalize protos).indexRows
      = (List.range protos.length).map (fun i => [some (JValue.scalar (.int i))]) ∧
    (proto_normalize protos).rowData.length = protos.length ∧
    ∀ i : Nat, (proto_normalize protos).rowData[i]?
      = (protos[i]?).map (fun p => ntr (proto_to_dict p) "" 0) := by
  refine ⟨rfl, ?_, by simp [proto_normalize, json_normalize], ?_⟩
  · simp [proto_normalize, json_normalize]
  · intro i
    simp [proto_normalize, json_normalize]
    rfl

theorem nodupNames_iff (l : List String) : nodupNames l = true ↔ l.Nodup := by
  induction l with
  | nil => simp [nodupNames]
  | cons k ks ih => simp [nodupNames, ih]

theorem append_dot_ne (idx seg : String) : idx ++ "." ++ seg ≠ seg := by
  intro h
  have hl := congrArg String.length h
  rw [String.length_append, String.length_append] at hl
  have h1 : (".").length = 1 := rfl
  omega

theorem dicts_from_length (elems : RepElems) (cp ip : String) :
    (dicts_from_repeated_field elems cp ip).length = relen elems := by
  cases elems <;> simp [dicts_from_repeated_field, relen]

theorem dicts_from_lookup_index (elems : RepElems) (cp ip : String)
    (hne : ip ≠ cp) (j : Nat) :
    ((dicts_from_repeated_field elems cp ip)[j]?).bind (fun d => dlookup d ip)
      = if j < relen elems then some (.scalar (.int j)) else none := by
  cases elems with
  | scalars xs =>
    show ((xs.enum.map (fun p => dinsert (dinsert [] ip (.scalar (.int p.1))) cp (.scalar p.2)))[j]?).bind (fun d => dlookup d ip) = if j < xs.length then some (.scalar (.int j)) else none
    rcases Nat.lt_or_ge j xs.length with hj | hj
    · rw [if_pos hj]
      rw [List.getElem?_map, List.getElem?_enum, List.getElem?_eq_getElem hj]
      simp [dlookup_dinsert_ne _ _ hne, dlookup_dinsert_self]
    · rw [if_neg (by omega)]
      rw [List.getElem?_map, List.getElem?_enum, List.getElem?_eq_none hj]
      rfl
  | msgs ms =>
    show ((ms.enum.map (fun p => dinsert (proto_to_dict p.2) ip (.scalar (.int p.1))))[j]?).bind (fun d => dlookup d ip) = if j < ms.length then some (.scalar (.int j)) else none
    rcases Nat.lt_or_ge j ms.length with hj | hj
    · rw [if_pos hj]
      rw [List.getElem?_map, List.getElem?_enum, List.getElem?_eq_getElem hj]
      simp [dlookup_dinsert_self]
    · rw [if_neg (by omega)]
      rw [List.getElem?_map, List.getElem?_enum, List.getElem?_eq_none hj]
      rfl

/-- C10: the value stored under an index key is always the element's
position at that level: the positional index assignment happens after
flattening and `d[k] = i` overwrite semantics make it win over any
colliding key, at every stamping site (`dicts_from_repeated_field`,
`explode_repeated`, and the top-level `"index."` stamp of
`proto_explode`). -/
theorem claim10_index_overwrite :
    (∀ (elems : RepElems) (cp ip : String), ip ≠ cp → ∀ j : Nat,
      ((dicts_from_repeated_field elems cp ip)[j]?).bind (fun d => dlookup d ip)
        = if j < relen elems then some (.scalar (.int j)) else none) ∧
    (∀ (ms : List ProtoMessage) (path ip : String) (i : Nat) (ds : List Dict),
      explode_repeated_go ms path ip i = .ok ds →
      ∀ d ∈ ds, ∃ j : Nat, j < ms.length ∧ dlookup d ip = some (.scalar (.int (i + j)))) ∧
    (∀ (protos : List ProtoMessage) (path : String) (i : Nat) (pl : List Dict),
      proto_explode_go protos path i = .ok pl →
      ∀ d ∈ pl, ∃ j : Nat, j < protos.length ∧ dlookup d "index." = some (.scalar (.int (i + j)))) := by
  refine ⟨fun elems cp ip hne j => dicts_from_lookup_index elems cp ip hne j, ?_, ?_⟩
  · intro ms
    induction ms with
    | nil =>
      intro path ip i ds h d hd
      rw [explode_repeated_go] at h
      simp at h
      subst h
      simp at hd
    | cons e rest ih =>
      intro path ip i ds h d hd
      rw [explode_repeated_go] at h
      cases he : explode_field e path ip with
      | error err => rw [he] at h; simp at h
      | ok ds0 =>
        rw [he] at h
        cases ht : explode_repeated_go rest path ip (i + 1) with
        | error err => rw [ht] at h; simp at h
        | ok tail =>
          rw [ht] at h
          simp at h
          subst h
          rcases List.mem_append.1 hd with hd | hd
          · obtain ⟨d0, _, rfl⟩ := List.mem_map.1 hd
            exact ⟨0, by simp, by rw [dlookup_dinsert_self]; simp⟩
          · obtain ⟨j, hj, hv⟩ := ih path ip (i + 1) tail ht d hd
            exact ⟨j + 1, by simp; omega, by rw [hv]; congr 1; congr 1; congr 1; omega⟩
  · intro protos
    induction protos with
    | nil =>
      intro path i pl h d hd
      rw [proto_explode_go] at h
      simp at h
      subst h
      simp at hd
    | cons p rest ih =>
      intro path i pl h d hd
      rw [proto_explode_go] at h
      cases he : explode_field p path "index" with
      | error err => rw [he] at h; simp at h
      | ok ds0 =>
        rw [he] at h
        cases ht : proto_explode_go rest path (i + 1) with
        | error err => rw [ht] at h; simp at h
        | ok tail =>
          rw [ht] at h
          simp at h
          subst h
          rcases List.mem_append.1 hd with hd | hd
          · obtain ⟨d0, _, rfl⟩ := List.mem_map.1 hd
            exact ⟨0, by simp, by rw [dlookup_dinsert_self]; simp⟩
          · obtain ⟨j, hj, hv⟩ := ih path (i + 1) tail ht d hd
            exact ⟨j + 1, by simp; omega, by rw [hv]; congr 1; congr 1; congr 1; omega⟩

/-- Witness for C10: part one at `{index.b: 0, b: 10}`-style rows, parts two
and three at the concrete scenario records with path `"b"`. -/
theorem claim10_witness :
    ("index.b" : String) ≠ "b" ∧
    ((dicts_from_repeated_field (.scalars [.int 10, .int 20]) "b" "index.b")[1]?).bind
        (fun d => dlookup d "index.b") = some (.scalar (.int 1)) := by
  constructor
  · decide
  · rw [claim10_index_overwrite.1 (.scalars [.int 10, .int 20]) "b" "index.b" (by decide) 1]
    rfl

/-- C5: a terminal repeated field of length `n` explodes into exactly `n`
rows in element order, whose index values at that level are `0 .. n-1`;
for a single-record input `proto_explode`'s row list is exactly those rows
stamped with record position 0. -/
theorem claim5_terminal_rows (m : ProtoMessage) (path seg idx : String) (v : ProtoValue)
    (h1 : partitionDot path = (seg, ""))
    (h2 : plookup m seg = some v)
    (h3 : isRepV v = true) :
    explode_field m path idx
      = .ok (dicts_from_repeated_field (repElemsOf v) seg (idx ++ "." ++ seg)) ∧
    (dicts_from_repeated_field (repElemsOf v) seg (idx ++ "." ++ seg)).length = relen (repElemsOf v) ∧
    (∀ j : Nat,
      ((dicts_from_repeated_field (repElemsOf v) seg (idx ++ "." ++ seg))[j]?).bind
          (fun d => dlookup d (idx ++ "." ++ seg))
        = if j < relen (repElemsOf v) then some (.scalar (.int j)) else none) ∧
    proto_explode_go [m] path 0
      = .ok ((dicts_from_repeated_field (repElemsOf v) seg ("index" ++ "." ++ seg)).map
          (fun d => dinsert d "index." (.scalar (.int 0)))) := by
  have hmain : ∀ idx2 : String, explode_field m path idx2
      = .ok (dicts_from_repeated_field (repElemsOf v) seg (idx2 ++ "." ++ seg)) := by
    intro idx2
    cases v with
    | scalar _ => simp [isRepV] at h3
    | msg _ => simp [isRepV] at h3
    | repScalar xs => rw [explode_field_repScalar h1 h2]; rfl
    | repMsg ms => rw [explode_field_repMsg h1 h2]; rfl
  refine ⟨hmain idx, dicts_from_length _ _ _, ?_, ?_⟩
  · intro j
    exact dicts_from_lookup_index _ _ _ (append_dot_ne idx seg) j
  · rw [proto_explode_go, hmain "index", proto_explode_go]
    simp

/-- Witness for C5 at the concrete record `{a:1, b:[10,20], c:{d:"x"}}` and
path `"b"`. -/
theorem claim5_witness :
    plookup rec0 "b" = some (.repScalar [.int 10, .int 20]) ∧
    explode_field rec0 "b" "index"
      = .ok (dicts_from_repeated_field (repElemsOf (.repScalar [.int 10, .int 20])) "b"
          ("index" ++ "." ++ "b")) :=
  ⟨rfl, (claim5_terminal_rows rec0 "b" "b" "index" (.repScalar [.int 10, .int 20]) rfl rfl rfl).1⟩

theorem ptdGo_spec (fs : List (String × ProtoValue)) (acc : Dict)
    (hnd : (dkeys acc ++ (fs.filter (fun f => !isRepV f.2)).map Prod.fst).Nodup) :
    dkeys (ptdGo fs acc) = dkeys acc ++ (fs.filter (fun f => !isRepV f.2)).map Prod.fst ∧
    (∀ k, k ∉ (fs.filter (fun f => !isRepV f.2)).map Prod.fst →
      dlookup (ptdGo fs acc) k = dlookup acc k) ∧
    (∀ name sub, (name, ProtoValue.msg sub) ∈ fs →
      dlookup (ptdGo fs acc) name = some (.obj (proto_to_dict sub))) := by
  induction fs generalizing acc with
  | nil =>
    refine ⟨by simp [ptdGo], fun k _ => rfl, fun name sub h => absurd h (by simp)⟩
  | cons f rest ih =>
    obtain ⟨n, v⟩ := f
    have hrep : ∀ (hv : isRepV v = true),
        dkeys (ptdGo ((n, v) :: rest) acc)
            = dkeys acc ++ (((n, v) :: rest).filter (fun f => !isRepV f.2)).map Prod.fst ∧
        (∀ k, k ∉ (((n, v) :: rest).filter (fun f => !isRepV f.2)).map Prod.fst →
          dlookup (ptdGo ((n, v) :: rest) acc) k = dlookup acc k) ∧
        (∀ name sub, (name, ProtoValue.msg sub) ∈ (n, v) :: rest →
          dlookup (ptdGo ((n, v) :: rest) acc) name = some (.obj (proto_to_dict sub))) := by
      intro hv
      have hfilter : (((n, v) :: rest).filter (fun f => !isRepV f.2))
          = rest.filter (fun f => !isRepV f.2) := by simp [hv]
      rw [hfilter] at hnd ⊢
      have hgo : ptdGo ((n, v) :: rest) acc = ptdGo rest acc := by
        cases v <;> first | rfl | simp [isRepV] at hv
      rw [hgo]
      have hmain := ih acc hnd
      refine ⟨hmain.1, hmain.2.1, ?_⟩
      intro name sub hmem
      rcases List.mem_cons.1 hmem with hmem | hmem
      · exfalso
        injection hmem with he1 he2
        rw [← he2] at hv
        simp [isRepV] at hv
      · exact hmain.2.2 name sub hmem
    have hsing : ∀ (v2 : JValue) (hv : isRepV v = false)
        (hgo : ptdGo ((n, v) :: rest) acc = ptdGo rest (dinsert acc n v2)),
        dkeys (ptdGo ((n, v) :: rest) acc)
            = dkeys acc ++ (((n, v) :: rest).filter (fun f => !isRepV f.2)).map Prod.fst ∧
        (∀ k, k ∉ (((n, v) :: rest).filter (fun f => !isRepV f.2)).map Prod.fst →
          dlookup (ptdGo ((n, v) :: rest) acc) k = dlookup acc k) ∧
        dlookup (ptdGo ((n, v) :: rest) acc) n = dlookup (dinsert acc n v2) n ∧
        (∀ name sub, (name, ProtoValue.msg sub) ∈ rest →
          dlookup (ptdGo ((n, v) :: rest) acc) name = some (.obj (proto_to_dict sub))) := by
      intro v2 hv hgo
      have hfilter : (((n, v) :: rest).filter (fun f => !isRepV f.2))
          = (n, v) :: rest.filter (fun f => !isRepV f.2) := by simp [hv]
      rw [hfilter] at hnd ⊢
      simp only [List.map_cons] at hnd ⊢
      have hnotacc : n ∉ dkeys acc := by
        intro hmem
        exact (List.disjoint_of_nodup_append hnd) hmem (by simp)
      have hnodup2 : (dkeys (dinsert acc n v2)
          ++ (rest.filter (fun f => !isRepV f.2)).map Prod.fst).Nodup := by
        rw [dkeys_dinsert_notmem v2 hnotacc, List.append_assoc, List.singleton_append]
        exact hnd
      have hmain := ih (dinsert acc n v2) hnodup2
      have hnrest : n ∉ (rest.filter (fun f => !isRepV f.2)).map Prod.fst := by
        have := List.Nodup.of_append_right hnd
        exact (List.nodup_cons.1 this).1
      rw [hgo]
      refine ⟨?_, ?_, ?_, ?_⟩
      · rw [hmain.1, dkeys_dinsert_notmem v2 hnotacc, List.append_assoc, List.singleton_append]
      · intro k hk
        rw [List.mem_cons] at hk
        push_neg at hk
        rw [hmain.2.1 k hk.2]
        exact dlookup_dinsert_ne acc v2 hk.1
      · exact hmain.2.1 n hnrest
      · intro name sub hmem
        exact hmain.2.2 name sub hmem
    cases v with
    | repScalar xs => exact hrep rfl
    | repMsg ms => exact hrep rfl
    | scalar sc =>
      have h := hsing (JValue.scalar sc) rfl (by rw [ptdGo])
      refine ⟨h.1, h.2.1, ?_⟩
      intro name sub hmem
      rcases List.mem_cons.1 hmem with hmem2 | hmem2
      · exact absurd hmem2 (by simp)
      · exact h.2.2.2 name sub hmem2
    | msg sub0 =>
      have h := hsing (JValue.obj (proto_to_dict sub0)) rfl (by rw [ptdGo])
      refine ⟨h.1, h.2.1, ?_⟩
      intro name sub hmem
      rcases List.mem_cons.1 hmem with hmem2 | hmem2
      · injection hmem2 with he1 he2
        injection he2 with he3
        subst he1
        subst he3
        rw [h.2.2.1, dlookup_dinsert_self]
      · exact h.2.2.2 name sub hmem2

/-- C7: for a well-formed record, the keys of `proto_to_dict` are exactly
the names of the non-repeated declared fields (in order), no repeated
field's name appears (even message-typed), and each singular message
field's value is the recursively flattened sub-mapping under that field's
name. -/
theorem claim7_flattener_keys (m : ProtoMessage) (h : wfMsg m = true) :
    dkeys (proto_to_dict m) = msgNonRepNames m ∧
    (∀ kv ∈ m.fields, isRepV kv.2 = true → dlookup (proto_to_dict m) kv.1 = none) ∧
    (∀ name sub, (name, ProtoValue.msg sub) ∈ m.fields →
      dlookup (proto_to_dict m) name = some (.obj (proto_to_dict sub))) := by
  obtain ⟨fs⟩ := m
  rw [wfMsg] at h
  simp only [Bool.and_eq_true] at h
  have hnodup : (fs.map Prod.fst).Nodup := (nodupNames_iff _).1 h.1
  have hnd : ((dkeys ([] : Dict)) ++ (fs.filter (fun f => !isRepV f.2)).map Prod.fst).Nodup := by
    show (([] : List String) ++ (fs.filter (fun f => !isRepV f.2)).map Prod.fst).Nodup
    rw [List.nil_append]
    exact List.Nodup.sublist (List.Sublist.map Prod.fst (List.filter_sublist fs)) hnodup
  have hspec := ptdGo_spec fs [] hnd
  have hptd : proto_to_dict (.mk fs) = ptdGo fs [] := by rw [proto_to_dict]
  have hfl : (ProtoMessage.mk fs).fields = fs := rfl
  refine ⟨?_, ?_, ?_⟩
  · rw [hptd, hspec.1]
    show (fs.filter (fun f => !isRepV f.2)).map Prod.fst = msgNonRepNames (.mk fs)
    rfl
  · intro kv hkv hrep
    rw [hfl] at hkv
    have hnot : kv.1 ∉ (fs.filter (fun f => !isRepV f.2)).map Prod.fst := by
      intro hin
      obtain ⟨kv2, hkv2, he⟩ := List.mem_map.1 hin
      have hkv2f := List.mem_of_mem_filter hkv2
      have hkv2p := List.of_mem_filter hkv2
      have : kv2 = kv := List.inj_on_of_nodup_map hnodup hkv2f hkv he
      subst this
      rw [hrep] at hkv2p
      simp at hkv2p
    rw [hptd, hspec.2.1 kv.1 hnot]
    rfl
  · intro name sub hmem
    rw [hfl] at hmem
    rw [hptd]
    exact hspec.2.2 name sub hmem

/-- Witness for C7 at the record `{a:1, b:[10,20], c:{d:"x"}}`. -/
theorem claim7_witness :
    wfMsg rec0 = true ∧ dkeys (proto_to_dict rec0) = msgNonRepNames rec0 :=
  ⟨rfl, (claim7_flattener_keys rec0 rfl).1⟩

set_option maxHeartbeats 1000000 in
/-- C1: the spec's concrete scenario. -/
theorem claim1_concrete_scenario :
    proto_normalize [rec0, rec1]
      = ⟨[some "index"],
         [[some (.scalar (.int 0))], [some (.scalar (.int 1))]],
         ["a", "c.d"],
         [[("a", .scalar (.int 1)), ("c.d", .scalar (.str "x"))],
          [("a", .scalar (.int 2)), ("c.d", .scalar (.str "y"))]]⟩ ∧
    proto_explode [rec0, rec1] "b"
      = .ok ⟨[some "index", some "index.b"],
             [[some (.scalar (.int 0)), some (.scalar (.int 0))],
              [some (.scalar (.int 0)), some (.scalar (.int 1))],
              [some (.scalar (.int 1)), some (.scalar (.int 0))]],
             ["b"],
             [[("b", .scalar (.int 10))], [("b", .scalar (.int 20))], [("b", .scalar (.int 30))]]⟩ := by
  constructor
  · simp +decide [rec0, rec1, proto_normalize, json_normalize, proto_to_dict, ptdGo, ntr,
      ntrGo, dinsert, dkeys, popKey, dictUpdate, newKey, unionKeys, List.range, List.range.loop]
  · have e0 : explode_field rec0 "b" "index"
        = .ok [[("index.b", JValue.scalar (.int 0)), ("b", JValue.scalar (.int 10))],
               [("index.b", JValue.scalar (.int 1)), ("b", JValue.scalar (.int 20))]] := by
      rw [@explode_field_repScalar rec0 "b" "b" "index" [.int 10, .int 20] rfl rfl]
      rfl
    have e1 : explode_field rec1 "b" "index"
        = .ok [[("index.b", JValue.scalar (.int 0)), ("b", JValue.scalar (.int 30))]] := by
      rw [@explode_field_repScalar rec1 "b" "b" "index" [.int 30] rfl rfl]
      rfl
    have g : proto_explode_go [rec0, rec1] "b" 0
        = .ok [[("index.b", JValue.scalar (.int 0)), ("b", JValue.scalar (.int 10)), ("index.", JValue.scalar (.int 0))],
               [("index.b", JValue.scalar (.int 1)), ("b", JValue.scalar (.int 20)), ("index.", JValue.scalar (.int 0))],
               [("index.b", JValue.scalar (.int 0)), ("b", JValue.scalar (.int 30)), ("index.", JValue.scalar (.int 1))]] := by
      rw [proto_explode_go, e0, proto_explode_go, e1, proto_explode_go]
      simp +decide [dinsert, dkeys]
    rw [proto_explode, g]
    simp +decide [json_normalize, ntr, ntrGo, dinsert, dkeys, popKey, dictUpdate, newKey,
      unionKeys, set_index, renameIndexLevels, sortStrings, insertSorted, strLe, charListLe,
      strStarts, dlookup, List.range, List.range.loop]


theorem explode_repeated_go_terminal (rest segI idx2 : String)
    (h3 : partitionDot rest = (segI, ""))
    (elems : List ProtoMessage) (i : Nat)
    (h5 : ∀ e ∈ elems, ∃ v, plookup e segI = some v ∧ isRepV v = true) :
    explode_repeated_go elems rest idx2 i
      = .ok ((elems.enumFrom i).flatMap (fun p =>
          (dicts_from_repeated_field
              (repElemsOf ((plookup p.2 segI).getD (ProtoValue.repScalar []))) segI
              (idx2 ++ "." ++ segI)).map
            (fun d => dinsert d idx2 (.scalar (.int p.1))))) := by
  induction elems generalizing i with
  | nil => rw [explode_repeated_go]; rfl
  | cons e tl ih =>
    obtain ⟨v, hv, hrep⟩ := h5 e (by simp)
    have he : explode_field e rest idx2
        = .ok (dicts_from_repeated_field (repElemsOf v) segI (idx2 ++ "." ++ segI)) := by
      cases v with
      | scalar _ => simp [isRepV] at hrep
      | msg _ => simp [isRepV] at hrep
      | repScalar xs => rw [explode_field_repScalar h3 hv]; rfl
      | repMsg ms => rw [explode_field_repMsg h3 hv]; rfl
    rw [explode_repeated_go, he, ih (i + 1) (fun e2 he2 => h5 e2 (by simp [he2]))]
    show Except.ok _ = _
    have hgd : (plookup e segI).getD (ProtoValue.repScalar []) = v := by rw [hv]; rfl
    simp [List.enumFrom, hgd]

theorem enumFrom_snd_map {A B : Type} (h : A → B) (l : List A) (i : Nat) :
    (List.enumFrom i l).map (fun p => h p.2) = l.map h := by
  induction l generalizing i with
  | nil => rfl
  | cons a tl ih => simp [List.enumFrom, ih]

theorem enumFrom_take {A : Type} (l : List A) (i j : Nat) :
    (List.enumFrom i l).take j = List.enumFrom i (l.take j) := by
  induction l generalizing i j with
  | nil => simp
  | cons a tl ih =>
    cases j with
    | zero => rfl
    | succ j2 => simp [List.enumFrom, List.take_succ_cons, ih]

theorem append_dot_ne_left (a b : String) : a ++ "." ++ b ≠ a := by
  intro h
  have hl := congrArg String.length h
  rw [String.length_append, String.length_append] at hl
  have h1 : (".").length = 1 := rfl
  omega

theorem flatMap_pos {A B : Type} (l : List A) (f : A → List B) (j : Nat) (e : A) (k : Nat)
    (hj : l[j]? = some e) (hk : k < (f e).length) :
    (l.flatMap f)[((l.take j).map (fun x => (f x).length)).sum + k]? = (f e)[k]? := by
  induction l generalizing j with
  | nil => simp at hj
  | cons a tl ih =>
    cases j with
    | zero =>
      simp at hj
      subst hj
      simp only [List.take_zero, List.map_nil, List.sum_nil, Nat.zero_add]
      rw [List.flatMap_cons, List.getElem?_append, if_pos hk]
    | succ j2 =>
      simp only [List.getElem?_cons_succ] at hj
      rw [List.flatMap_cons, List.getElem?_append]
      rw [List.take_succ_cons, List.map_cons, List.sum_cons]
      have hge : ¬ ((f a).length + (((tl.take j2).map (fun x => (f x).length)).sum + k) < (f a).length) := by
        omega
      rw [if_neg (by omega)]
      have harr : (f a).length + ((tl.take j2).map (fun x => (f x).length)).sum + k - (f a).length
          = ((tl.take j2).map (fun x => (f x).length)).sum + k := by omega
      rw [harr]
      exact ih j2 hj

/-- C6: a path crossing two repetition levels produces, per record, one row
for each inner element of each outer element, concatenated in outer-major
order; each row carries the outer position under the outer index key and
the inner position under the inner index key. -/
theorem claim6_two_level_rows (m : ProtoMessage) (path segO rest segI idx : String)
    (elems : List ProtoMessage)
    (h1 : partitionDot path = (segO, rest))
    (h2 : rest ≠ "")
    (h3 : partitionDot rest = (segI, ""))
    (h4 : plookup m segO = some (.repMsg elems))
    (h5 : ∀ e ∈ elems, ∃ v, plookup e segI = some v ∧ isRepV v = true) :
    explode_field m path idx
      = .ok ((elems.enum).flatMap (fun p =>
          (dicts_from_repeated_field
              (repElemsOf ((plookup p.2 segI).getD (ProtoValue.repScalar []))) segI
              ((idx ++ "." ++ segO) ++ "." ++ segI)).map
            (fun d => dinsert d (idx ++ "." ++ segO) (.scalar (.int p.1))))) ∧
    (∀ ds, explode_field m path idx = .ok ds →
      ds.length = (elems.map (fun e =>
        relen (repElemsOf ((plookup e segI).getD (ProtoValue.repScalar []))))).sum ∧
      ∀ j e, elems[j]? = some e →
        ∀ k, k < relen (repElemsOf ((plookup e segI).getD (ProtoValue.repScalar []))) →
          ((ds[((elems.take j).map (fun e2 =>
              relen (repElemsOf ((plookup e2 segI).getD (ProtoValue.repScalar []))))).sum + k]?).bind
            (fun d => dlookup d (idx ++ "." ++ segO)) = some (.scalar (.int j)) ∧
           (ds[((elems.take j).map (fun e2 =>
              relen (repElemsOf ((plookup e2 segI).getD (ProtoValue.repScalar []))))).sum + k]?).bind
            (fun d => dlookup d ((idx ++ "." ++ segO) ++ "." ++ segI)) = some (.scalar (.int k)))) := by
  have hmain : explode_field m path idx
      = .ok ((elems.enum).flatMap (fun p =>
          (dicts_from_repeated_field
              (repElemsOf ((plookup p.2 segI).getD (ProtoValue.repScalar []))) segI
              ((idx ++ "." ++ segO) ++ "." ++ segI)).map
            (fun d => dinsert d (idx ++ "." ++ segO) (.scalar (.int p.1))))) := by
    rw [explode_field_repMsg_rest h1 h2 h4]
    rw [explode_repeated_go_terminal rest segI (idx ++ "." ++ segO) h3 elems 0 h5]
    rfl
  refine ⟨hmain, ?_⟩
  intro ds hds
  rw [hmain] at hds
  have hds2 : ds = (elems.enum).flatMap (fun p =>
      (dicts_from_repeated_field
          (repElemsOf ((plookup p.2 segI).getD (ProtoValue.repScalar []))) segI
          ((idx ++ "." ++ segO) ++ "." ++ segI)).map
        (fun d => dinsert d (idx ++ "." ++ segO) (.scalar (.int p.1)))) := by
    injection hds.symm
  subst hds2
  constructor
  · rw [List.length_flatMap]
    have hcong : List.map (List.length ∘ (fun p : Nat × ProtoMessage =>
        (dicts_from_repeated_field
            (repElemsOf ((plookup p.2 segI).getD (ProtoValue.repScalar []))) segI
            ((idx ++ "." ++ segO) ++ "." ++ segI)).map
          (fun d => dinsert d (idx ++ "." ++ segO) (.scalar (.int p.1))))) elems.enum
        = List.map (fun p : Nat × ProtoMessage =>
            relen (repElemsOf ((plookup p.2 segI).getD (ProtoValue.repScalar [])))) elems.enum := by
      apply List.map_congr_left
      intro p _
      simp [dicts_from_length]
    rw [hcong]
    show ((List.enumFrom 0 elems).map (fun p =>
        relen (repElemsOf ((plookup p.2 segI).getD (ProtoValue.repScalar []))))).sum = _
    exact congrArg List.sum (enumFrom_snd_map
      (fun e => relen (repElemsOf ((plookup e segI).getD (ProtoValue.repScalar [])))) elems 0)
  · intro j e hj k hk
    have hjenum : elems.enum[j]? = some (j, e) := by
      rw [List.getElem?_enum, hj]
      rfl
    have hklen : k < ((dicts_from_repeated_field
        (repElemsOf ((plookup e segI).getD (ProtoValue.repScalar []))) segI
        ((idx ++ "." ++ segO) ++ "." ++ segI)).map
          (fun d => dinsert d (idx ++ "." ++ segO) (.scalar (.int j)))).length := by
      rw [List.length_map, dicts_from_length]
      exact hk
    have hpos := flatMap_pos elems.enum
      (fun p : Nat × ProtoMessage =>
        (dicts_from_repeated_field
            (repElemsOf ((plookup p.2 segI).getD (ProtoValue.repScalar []))) segI
            ((idx ++ "." ++ segO) ++ "." ++ segI)).map
          (fun d => dinsert d (idx ++ "." ++ segO) (.scalar (.int p.1))))
      j (j, e) k hjenum hklen
    have hsum : ((elems.enum.take j).map (fun x : Nat × ProtoMessage =>
        ((dicts_from_repeated_field
            (repElemsOf ((plookup x.2 segI).getD (ProtoValue.repScalar []))) segI
            ((idx ++ "." ++ segO) ++ "." ++ segI)).map
          (fun d => dinsert d (idx ++ "." ++ segO) (.scalar (.int x.1)))).length)).sum
        = ((elems.take j).map (fun e2 =>
            relen (repElemsOf ((plookup e2 segI).getD (ProtoValue.repScalar []))))).sum := by
      have h1 : elems.enum.take j = List.enumFrom 0 (elems.take j) := enumFrom_take elems 0 j
      rw [h1]
      have h2 : (List.enumFrom 0 (elems.take j)).map (fun x : Nat × ProtoMessage =>
          ((dicts_from_repeated_field
              (repElemsOf ((plookup x.2 segI).getD (ProtoValue.repScalar []))) segI
              ((idx ++ "." ++ segO) ++ "." ++ segI)).map
            (fun d => dinsert d (idx ++ "." ++ segO) (.scalar (.int x.1)))).length)
          = (List.enumFrom 0 (elems.take j)).map (fun x : Nat × ProtoMessage =>
              relen (repElemsOf ((plookup x.2 segI).getD (ProtoValue.repScalar [])))) := by
        apply List.map_congr_left
        intro p _
        simp [dicts_from_length]
      rw [h2]
      exact congrArg List.sum (enumFrom_snd_map
        (fun e => relen (repElemsOf ((plookup e segI).getD (ProtoValue.repScalar []))))
        (elems.take j) 0)
    rw [hsum] at hpos
    have hdk : k < (dicts_from_repeated_field
        (repElemsOf ((plookup e segI).getD (ProtoValue.repScalar []))) segI
        ((idx ++ "." ++ segO) ++ "." ++ segI)).length := by
      rw [dicts_from_length]
      exact hk
    have hget : (dicts_from_repeated_field
        (repElemsOf ((plookup e segI).getD (ProtoValue.repScalar []))) segI
        ((idx ++ "." ++ segO) ++ "." ++ segI))[k]?
        = some ((dicts_from_repeated_field
            (repElemsOf ((plookup e segI).getD (ProtoValue.repScalar []))) segI
            ((idx ++ "." ++ segO) ++ "." ++ segI)).get ⟨k, hdk⟩) := List.getElem?_eq_getElem hdk
    rw [hpos, List.getElem?_map, hget]
    have hlook := dicts_from_lookup_index
        (repElemsOf ((plookup e segI).getD (ProtoValue.repScalar []))) segI
        ((idx ++ "." ++ segO) ++ "." ++ segI)
        (append_dot_ne (idx ++ "." ++ segO) segI) k
    rw [hget] at hlook
    rw [if_pos (by rw [← dicts_from_length (repElemsOf ((plookup e segI).getD (ProtoValue.repScalar []))) segI ((idx ++ "." ++ segO) ++ "." ++ segI)]; exact hdk)] at hlook
    simp only [Option.some_bind] at hlook
    constructor
    · simp [dlookup_dinsert_self]
    · show dlookup
          (dinsert ((dicts_from_repeated_field
              (repElemsOf ((plookup e segI).getD (ProtoValue.repScalar []))) segI
              ((idx ++ "." ++ segO) ++ "." ++ segI)).get ⟨k, hdk⟩)
            (idx ++ "." ++ segO) (.scalar (.int j)))
          ((idx ++ "." ++ segO) ++ "." ++ segI) = some (.scalar (.int k))
      rw [dlookup_dinsert_ne _ _ (append_dot_ne_left (idx ++ "." ++ segO) segI)]
      exact hlook

/-- Witness for C6 at the record `{o: [{b: [1, 2]}, {b: [3]}]}` and path
`"o.b"`. -/
theorem claim6_witness :
    ("b" : String) ≠ "" ∧
    explode_field (.mk [("o", .repMsg
        [.mk [("b", .repScalar [.int 1, .int 2])], .mk [("b", .repScalar [.int 3])]])])
      "o.b" "index"
      = .ok [[("index.o.b", .scalar (.int 0)), ("b", .scalar (.int 1)), ("index.o", .scalar (.int 0))],
             [("index.o.b", .scalar (.int 1)), ("b", .scalar (.int 2)), ("index.o", .scalar (.int 0))],
             [("index.o.b", .scalar (.int 0)), ("b", .scalar (.int 3)), ("index.o", .scalar (.int 1))]] := by
  refine ⟨by decide, ?_⟩
  rw [(claim6_two_level_rows (.mk [("o", .repMsg
      [.mk [("b", .repScalar [.int 1, .int 2])], .mk [("b", .repScalar [.int 3])]])])
      "o.b" "o" "b" "b" "index"
      [.mk [("b", .repScalar [.int 1, .int 2])], .mk [("b", .repScalar [.int 3])]]
      rfl (by decide) rfl rfl ?_).1]
  · simp +decide [dicts_from_repeated_field, dinsert, dkeys, repElemsOf, plookup,
      ProtoMessage.fields, List.enum, List.enumFrom, List.flatMap, relen]
  · intro e he
    simp at he
    rcases he with rfl | rfl
    · exact ⟨.repScalar [.int 1, .int 2], rfl, rfl⟩
    · exact ⟨.repScalar [.int 3], rfl, rfl⟩


/-- C4 counterexample: for the record `{c: {d: "x"}}` and path `"c"` — a
path that ends on a singular *message* field without reaching a repeated
field — the raised error is the `getattr` failure for the empty segment,
not the traversal `ValueError` whose message names an offending segment
and an untraversed fragment. -/
theorem claim4_counterexample :
    explode_field msgOnlyRec "c" "index" = .error (.fieldNotFound "") ∧
    isTraversalError (explode_field msgOnlyRec "c" "index") = false := by
  have h1 := @explode_field_msg msgOnlyRec "c" "c" "" "index"
    (.mk [("d", .scalar (.str "x"))]) rfl rfl
  have h2 := @explode_field_none (.mk [("d", .scalar (.str "x"))]) "" "" ""
    ("index" ++ "." ++ "c") rfl rfl
  constructor
  · rw [h1, h2]
  · rw [h1, h2]
    rfl

/-- C4 (amended): when path traversal reaches a singular *scalar* field —
whether or not segments remain — the raised error is the traversal
`ValueError` identifying the offending segment and the untraversed path
fragment; when the path instead ends on a singular *message* field, the
raised error is the field-not-found error for the empty segment, which
names no offending segment or fragment. -/
theorem claim4_traversal_errors :
    (∀ (m : ProtoMessage) (path seg rest idx : String) (v : PScalar),
      partitionDot path = (seg, rest) →
      plookup m seg = some (.scalar v) →
      explode_field m path idx = .error (.cannotTraverse rest seg)) ∧
    (∀ (m : ProtoMessage) (path seg idx : String) (sub : ProtoMessage),
      partitionDot path = (seg, "") →
      plookup m seg = some (.msg sub) →
      plookup sub "" = none →
      explode_field m path idx = .error (.fieldNotFound "")) := by
  constructor
  · exact fun m path seg rest idx v h1 h2 => explode_field_scalar h1 h2
  · intro m path seg idx sub h1 h2 h3
    rw [explode_field_msg h1 h2]
    exact explode_field_none rfl h3

/-- Witness for C4 (amended): path `"a.z"` stops at scalar `a` of the
concrete scenario record; path `"c"` ends at the singular message `c` of
`{c: {d: "x"}}`. -/
theorem claim4_witness :
    partitionDot "a.z" = ("a", "z") ∧
    plookup rec0 "a" = some (.scalar (.int 1)) ∧
    explode_field rec0 "a.z" "index" = .error (.cannotTraverse "z" "a") ∧
    explode_field msgOnlyRec "c" "index" = .error (.fieldNotFound "") :=
  ⟨rfl, rfl,
   claim4_traversal_errors.1 rec0 "a.z" "a" "z" "index" (.int 1) rfl rfl,
   claim4_traversal_errors.2 msgOnlyRec "c" "c" "index"
     (.mk [("d", .scalar (.str "x"))]) rfl rfl rfl⟩

theorem index_dot_starts : strStarts "index." "index." = true := by decide

theorem index_dot_idxOK : strStarts "index." ("index" ++ ".") = true := by decide

theorem conformsVal_scalarK_inv {v : ProtoValue} (h : conformsVal v .scalarK = true) :
    ∃ s, v = .scalar s := by
  cases v with
  | scalar s => exact ⟨s, rfl⟩
  | msg sub => simp [conformsVal] at h
  | repScalar xs => simp [conformsVal] at h
  | repMsg ms => simp [conformsVal] at h

end Pandabuffers
